import Mathlib

set_option maxHeartbeats 1000000

/-
Verification development for the dwtr SVG text renderer core.

Conventions of the shallow embedding:
- Rust f32 values are modelled as exact rationals.
- Rust String values keep their Lean String type where they are only
  compared and stored; UTF-16 text buffers are modelled as lists of
  natural numbers (code units).
- Rust BTreeMap is modelled as a key-sorted association list; its insert
  operation is modelled by insertSorted and extend by a left fold of
  inserts, matching the sorted iteration order of the source map.
- u32 arithmetic in string_to_tag is modelled on Nat with the same
  shift, mask and or operations.
-/

/-! ## Sorted association maps (model of BTreeMap) -/

/-- Association-list lookup by key, first match wins. -/
def alookup {α β : Type} [LinearOrder α] (k : α) : List (α × β) → Option β
  | [] => none
  | (k2, v) :: rest => if k = k2 then some v else alookup k rest

/-- Insertion into a key-sorted association list, replacing an equal key.
This models BTreeMap insert. -/
def insertSorted {α β : Type} [LinearOrder α] (k : α) (v : β) :
    List (α × β) → List (α × β)
  | [] => [(k, v)]
  | (k2, v2) :: rest =>
    if k < k2 then (k, v) :: (k2, v2) :: rest
    else if k = k2 then (k, v) :: rest
    else (k2, v2) :: insertSorted k v rest

/-- Model of BTreeMap extend: insert every entry of the second map into the
first, in order. Entries of the second map win on shared keys. -/
def extendMap {α β : Type} [LinearOrder α] (base other : List (α × β)) :
    List (α × β) :=
  other.foldl (fun m kv => insertSorted kv.1 kv.2 m) base

/-- The keys of the association list are strictly increasing, as is the case
for the iteration order of a BTreeMap. -/
def SortedKeys {α β : Type} [LinearOrder α] (l : List (α × β)) : Prop :=
  l.Pairwise (fun p q => p.1 < q.1)

instance {α β : Type} [LinearOrder α] (l : List (α × β)) :
    Decidable (SortedKeys l) :=
  List.instDecidablePairwise l

/-! ## document.rs : TextStyle and merge -/

/-- FontStyle from document.rs. -/
inductive FontStyle where
  | Normal
  | Oblique
  | Italic
deriving DecidableEq, Repr

/-- FontVariationValue from document.rs. -/
inductive FontVariationValue where
  | Default
  | Set (x : ℚ)
deriving DecidableEq, Repr

/-- TextStyle from document.rs. -/
structure TextStyle where
  font_family : Option String
  font_weight : Option Int
  font_width : Option Int
  font_style : Option FontStyle
  font_size : Option ℚ
  color : Option String
  lang : Option String
  font_feature_settings : List (String × Nat)
  font_variation_settings : List (String × FontVariationValue)
deriving DecidableEq, Repr

/-- The derived Default value of TextStyle: every field unset, maps empty. -/
def TextStyle.empty : TextStyle :=
  ⟨none, none, none, none, none, none, none, [], []⟩

instance : Inhabited TextStyle := ⟨TextStyle.empty⟩

/-- TextStyle merge from document.rs lines 211 to 223: each scalar field of
the other style wins when present, otherwise the field of self is kept; the
two map fields are extended with the entries of the other style. The source
mutates self; here the updated self is returned. -/
def TextStyle.merge (self other : TextStyle) : TextStyle where
  font_family := other.font_family.or self.font_family
  font_weight := other.font_weight.or self.font_weight
  font_width := other.font_width.or self.font_width
  font_style := other.font_style.or self.font_style
  font_size := other.font_size.or self.font_size
  color := other.color.or self.color
  lang := other.lang.or self.lang
  font_feature_settings :=
    extendMap self.font_feature_settings other.font_feature_settings
  font_variation_settings :=
    extendMap self.font_variation_settings other.font_variation_settings

/-- Well-formedness of a TextStyle as produced from real BTreeMap values:
both map fields are key-sorted. -/
def TextStyle.Wf (s : TextStyle) : Prop :=
  SortedKeys s.font_feature_settings ∧ SortedKeys s.font_variation_settings

instance (s : TextStyle) : Decidable s.Wf := by
  unfold TextStyle.Wf; infer_instance

/-! ## document.rs : string_to_tag -/

/-- One loop iteration of string_to_tag (document.rs line 257):
result = (result >> 8) | ((code & 0xff) << 24). -/
def tag_step (result code : Nat) : Nat :=
  (result >>> 8) ||| ((code &&& 0xff) <<< 24)

/-- The padding loop of string_to_tag (document.rs lines 260 to 263):
while len < 4, result = (result >> 8) | 0x20000000. -/
def tag_pad (result len : Nat) : Nat :=
  if h : len < 4 then tag_pad ((result >>> 8) ||| 0x20000000) (len + 1)
  else result
  termination_by 4 - len
  decreasing_by omega

/-- string_to_tag from document.rs lines 252 to 265. The argument is the
list of char code points of the input string. -/
def string_to_tag (tag_str : List Nat) : Nat :=
  tag_pad (tag_str.foldl tag_step 0) tag_str.length

/-! ## document_analyzer.rs : DocumentAnalyzer -/

/-- DocumentContent from document.rs. Text strings are carried as their
UTF-16 code unit lists, which is the only form the analyzer uses. -/
inductive DocumentContent where
  | Text (tx : List Nat)
  | Style (s : TextStyle)
  | Embed (sub : List DocumentContent)

/-- StyleRun from document_analyzer.rs. -/
structure StyleRun where
  wch_start : Nat
  wch_end : Nat
  style : TextStyle
deriving DecidableEq, Repr

/-- DocumentAnalyzer state from document_analyzer.rs. -/
structure DocumentAnalyzer where
  text : List Nat
  style_runs : List StyleRun
  style_stack : List TextStyle
deriving DecidableEq, Repr

/-- DocumentAnalyzer::new: all three fields empty. -/
def DocumentAnalyzer.new : DocumentAnalyzer := ⟨[], [], []⟩

/-- sync_style_run_length: set the end of the last style run, if any, to the
current text length. -/
def sync_style_run_length (a : DocumentAnalyzer) : DocumentAnalyzer :=
  match a.style_runs.getLast? with
  | none => a
  | some r =>
    { a with style_runs :=
        a.style_runs.dropLast ++ [{ r with wch_end := a.text.length }] }

/-- start_style_run: append a run starting and ending at the current text
length with the given style. -/
def start_style_run (a : DocumentAnalyzer) (style : TextStyle) :
    DocumentAnalyzer :=
  { a with style_runs :=
      a.style_runs ++ [⟨a.text.length, a.text.length, style⟩] }

mutual

/-- DocumentAnalyzer::analyze from document_analyzer.rs lines 42 to 70. -/
def analyze (a : DocumentAnalyzer) : DocumentContent → DocumentAnalyzer
  | DocumentContent.Text tx =>
    sync_style_run_length { a with text := a.text ++ tx }
  | DocumentContent.Style s =>
    let a1 :=
      match a.style_stack.getLast? with
      | none => a
      | some top =>
        { a with style_stack := a.style_stack.dropLast ++ [top.merge s] }
    start_style_run a1 ((a1.style_stack.getLast?).getD TextStyle.empty)
  | DocumentContent.Embed sub =>
    let a1 := sync_style_run_length a
    let last_style := (a1.style_stack.getLast?).getD TextStyle.empty
    let a2 :=
      start_style_run
        { a1 with style_stack := a1.style_stack ++ [last_style] } last_style
    let a3 := analyzeList a2 sub
    let a4 := { a3 with style_stack := a3.style_stack.dropLast }
    start_style_run a4 last_style

/-- The loop over the children of an Embed node. -/
def analyzeList (a : DocumentAnalyzer) : List DocumentContent → DocumentAnalyzer
  | [] => a
  | c :: cs => analyzeList (analyze a c) cs

end

/-- The filtering applied by create_text_layout (document_analyzer.rs lines
105 to 108): runs with end at or before start are skipped, all others are
applied. -/
def appliedStyleRuns (runs : List StyleRun) : List StyleRun :=
  runs.filter (fun r => ! decide (r.wch_end ≤ r.wch_start))

/-- compute_layout_offset factor for horizontal alignment. -/
inductive HAlign where
  | Left
  | Center
  | Right
deriving DecidableEq, Repr

/-- compute_layout_offset factor for vertical alignment. -/
inductive VAlign where
  | Top
  | Center
  | Bottom
deriving DecidableEq, Repr

/-- The fields of DocumentFrame used by compute_layout_offset. -/
structure DocumentFrame where
  left : Option ℚ
  top : Option ℚ
  right : Option ℚ
  bottom : Option ℚ
  horizontal_align : HAlign
  vertical_align : VAlign
deriving DecidableEq, Repr

/-- The fields of DWRITE_TEXT_METRICS used by compute_layout_offset. -/
structure TextMetrics where
  left : ℚ
  top : ℚ
  width : ℚ
  height : ℚ
deriving DecidableEq, Repr

/-- DocumentAnalyzer::compute_layout_offset from document_analyzer.rs lines
178 to 206. -/
def compute_layout_offset (canvas_width canvas_height : ℚ)
    (frame : DocumentFrame) (metrics : TextMetrics) : ℚ × ℚ :=
  let factor_h : ℚ :=
    match frame.horizontal_align with
    | HAlign.Left => 0
    | HAlign.Center => 1 / 2
    | HAlign.Right => 1
  let factor_v : ℚ :=
    match frame.vertical_align with
    | VAlign.Top => 0
    | VAlign.Center => 1 / 2
    | VAlign.Bottom => 1
  let frame_left := frame.left.getD 0
  let frame_top := frame.top.getD 0
  let frame_right := frame.right.getD canvas_width
  let frame_bottom := frame.bottom.getD canvas_height
  let tm_cx := metrics.left + factor_h * metrics.width
  let tm_cy := metrics.top + factor_v * metrics.height
  let frame_cx := frame_left + factor_h * (frame_right - frame_left)
  let frame_cy := frame_top + factor_v * (frame_bottom - frame_top)
  (frame_cx - tm_cx, frame_cy - tm_cy)

/-! ## svg_text_render.rs : SharedStore -/

/-- SharedStore from svg_text_render.rs: the path id counter and the
IndexMap from path data to id, modelled as an insertion-ordered
association list. -/
structure SharedStore where
  last_path_id : Nat
  path_defs : List (String × Nat)
deriving DecidableEq, Repr

/-- SharedStore::new. -/
def SharedStore.new : SharedStore := ⟨0, []⟩

/-- SharedStore::add_path_def from svg_text_render.rs lines 119 to 131.
Returns the updated store and the id handed back to the caller. -/
def add_path_def (st : SharedStore) (s : String) : SharedStore × Nat :=
  if s = "" then (st, 0)
  else
    match alookup s st.path_defs with
    | some id => (st, id)
    | none =>
      (⟨st.last_path_id + 1, st.path_defs ++ [(s, st.last_path_id + 1)]⟩,
        st.last_path_id + 1)

/-- Run add_path_def over a whole list of path strings, keeping the store. -/
def internAll (l : List String) : SharedStore :=
  l.foldl (fun st s => (add_path_def st s).1) SharedStore.new

/-! ## svg_text_render.rs : geometry sink -/

/-- COORD_RESOLUTION from svg_text_render.rs line 483 (0x100 as f32). -/
def COORD_RESOLUTION : ℚ := 256

/-- Rounding of f32::round: round half away from zero. -/
def rustRound (q : ℚ) : ℤ :=
  if 0 ≤ q then ⌊q + 1 / 2⌋ else ⌈q - 1 / 2⌉

/-- SvgGeometrySink::process_coord from svg_text_render.rs lines 499 to 501:
(f * scalar * COORD_RESOLUTION).round() / COORD_RESOLUTION. -/
def process_coord (scalar f : ℚ) : ℚ :=
  (rustRound (f * scalar * COORD_RESOLUTION) : ℚ) / COORD_RESOLUTION

/-- A point as in D2D_POINT_2F. -/
structure Point2F where
  x : ℚ
  y : ℚ
deriving DecidableEq, Repr

/-- A cubic segment as in D2D1_BEZIER_SEGMENT. -/
structure BezierSegment where
  point1 : Point2F
  point2 : Point2F
  point3 : Point2F
deriving DecidableEq, Repr

/-- The two path commands AddBeziers can emit per segment. -/
inductive PathCmd where
  | Q (xm ym x3 y3 : ℚ)
  | C (x1 y1 x2 y2 x3 y3 : ℚ)
deriving DecidableEq, Repr

/-- The body of the loop of SvgGeometrySink::AddBeziers, svg_text_render.rs
lines 542 to 576, for one segment. The first two arguments are the sink
scalar and the sink last point; the result is the emitted command and the
new last point. -/
def addBezierStep (scalar : ℚ) (st : ℚ × ℚ) (curve : BezierSegment) :
    PathCmd × (ℚ × ℚ) :=
  let x0_orig := st.1
  let y0_orig := st.2
  let x1_orig := curve.point1.x
  let y1_orig := curve.point1.y
  let x2_orig := curve.point2.x
  let y2_orig := curve.point2.y
  let x3_orig := curve.point3.x
  let y3_orig := curve.point3.y
  let xm1 := x0_orig + (x1_orig - x0_orig) * (3 / 2)
  let ym1 := y0_orig + (y1_orig - y0_orig) * (3 / 2)
  let xm2 := x3_orig + (x2_orig - x3_orig) * (3 / 2)
  let ym2 := y3_orig + (y2_orig - y3_orig) * (3 / 2)
  let x1 := process_coord scalar x1_orig
  let y1 := process_coord scalar y1_orig
  let x2 := process_coord scalar x2_orig
  let y2 := process_coord scalar y2_orig
  let x3 := process_coord scalar x3_orig
  let y3 := process_coord scalar y3_orig
  let cmd :=
    if COORD_RESOLUTION * |xm2 - xm1| < 1 ∧ COORD_RESOLUTION * |ym2 - ym1| < 1
    then
      PathCmd.Q (process_coord scalar ((xm1 + xm2) / 2))
        (process_coord scalar ((ym1 + ym2) / 2)) x3 y3
    else PathCmd.C x1 y1 x2 y2 x3 y3
  (cmd, (x3_orig, y3_orig))

/-- SvgGeometrySink::AddBeziers over a list of segments: emit one command
per segment, threading the last point. -/
def AddBeziers (scalar : ℚ) (st : ℚ × ℚ) :
    List BezierSegment → List PathCmd × (ℚ × ℚ)
  | [] => ([], st)
  | c :: rest =>
    let step := addBezierStep scalar st c
    let tail := AddBeziers scalar step.2 rest
    (step.1 :: tail.1, tail.2)

/-! ## svg_text_render.rs : DrawGlyphRun pen positions -/

/-- The advance direction of DrawGlyphRun (svg_text_render.rs lines 420 to
424): -1 when the bidi level of the run is odd, else +1. -/
def direction (bidiLevel : Nat) : ℚ :=
  if bidiLevel % 2 = 1 then -1 else 1

/-- The pen x positions taken by the glyph loop of DrawGlyphRun
(svg_text_render.rs lines 386 to 427): the position used for each glyph,
starting from 0, each followed by adding direction times the advance. -/
def penLoop (bidiLevel : Nat) (offset : ℚ) : List ℚ → List ℚ
  | [] => []
  | adv :: rest =>
    offset :: penLoop bidiLevel (offset + direction bidiLevel * adv) rest

/-- Pen x position per glyph for a run with the given bidi level and
advances. -/
def penPositions (bidiLevel : Nat) (advances : List ℚ) : List ℚ :=
  penLoop bidiLevel 0 advances

/-! ## Lemmas on sorted association maps -/

theorem alookup_insertSorted {α β : Type} [LinearOrder α]
    (l : List (α × β)) (k k2 : α) (v : β) :
    alookup k (insertSorted k2 v l) = if k = k2 then some v else alookup k l := by
  induction l with
  | nil => simp [insertSorted, alookup]
  | cons p rest ih =>
    obtain ⟨k3, v3⟩ := p
    by_cases h1 : k2 < k3
    · simp [insertSorted, h1, alookup]
    · by_cases h2 : k2 = k3
      · subst h2
        simp only [insertSorted, h1, if_neg, if_pos rfl, lt_self_iff_false,
          if_false, if_true]
        by_cases h3 : k = k2 <;> simp [alookup, h3]
      · simp only [insertSorted, if_neg h1, if_neg h2]
        by_cases h3 : k = k3
        · subst h3
          have hk : ¬ k = k2 := fun he => h2 he.symm
          simp [alookup, hk]
        · simp [alookup, h3, ih]

theorem alookup_eq_none {α β : Type} [LinearOrder α]
    (l : List (α × β)) (k : α) (h : ∀ p ∈ l, ¬ p.1 = k) :
    alookup k l = none := by
  induction l with
  | nil => rfl
  | cons p rest ih =>
    have hpk : ¬ k = p.1 := fun he => h p (by simp) he.symm
    simp only [alookup, if_neg hpk]
    exact ih fun q hq => h q (by simp [hq])

theorem lookup_extendMap {α β : Type} [LinearOrder α]
    (other : List (α × β)) (base : List (α × β)) (ho : SortedKeys other)
    (k : α) :
    alookup k (extendMap base other) = (alookup k other).or (alookup k base) := by
  induction other generalizing base with
  | nil => simp [extendMap, alookup, Option.none_or]
  | cons p rest ih =>
    obtain ⟨k0, v0⟩ := p
    have hrest : SortedKeys rest := (List.pairwise_cons.mp ho).2
    have hgt : ∀ q ∈ rest, (k0 : α) < q.1 :=
      fun q hq => (List.pairwise_cons.mp ho).1 q hq
    have hstep : extendMap base ((k0, v0) :: rest) =
        extendMap (insertSorted k0 v0 base) rest := rfl
    rw [hstep, ih (insertSorted k0 v0 base) hrest, alookup_insertSorted]
    by_cases hk : k = k0
    · subst hk
      have : alookup k rest = none :=
        alookup_eq_none rest k (fun q hq => ne_of_gt (hgt q hq))
      simp [alookup, this]
    · simp [alookup, hk]

theorem insertSorted_append_last {α β : Type} [LinearOrder α]
    (l : List (α × β)) (k : α) (v : β) (h : ∀ p ∈ l, p.1 < k) :
    insertSorted k v l = l ++ [(k, v)] := by
  induction l with
  | nil => rfl
  | cons p rest ih =>
    obtain ⟨k2, v2⟩ := p
    have hk2 : k2 < k := h (k2, v2) (by simp)
    have h1 : ¬ k < k2 := not_lt_of_gt hk2
    have h2 : ¬ k = k2 := fun he => absurd hk2 (by simp [he])
    simp only [insertSorted, if_neg h1, if_neg h2, List.cons_append,
      List.cons.injEq, true_and]
    exact ih fun q hq => h q (by simp [hq])

theorem foldl_insertSorted_sorted {α β : Type} [LinearOrder α]
    (l acc : List (α × β)) (h : SortedKeys (acc ++ l)) :
    List.foldl (fun m kv => insertSorted kv.1 kv.2 m) acc l = acc ++ l := by
  induction l generalizing acc with
  | nil => simp
  | cons kv rest ih =>
    have hlt : ∀ p ∈ acc, p.1 < kv.1 := by
      intro p hp
      have := (List.pairwise_append.mp h).2.2 p hp kv (by simp)
      exact this
    have hins : insertSorted kv.1 kv.2 acc = acc ++ [kv] :=
      insertSorted_append_last acc kv.1 kv.2 hlt
    have hsort : SortedKeys ((acc ++ [kv]) ++ rest) := by
      simpa [List.append_assoc] using h
    calc List.foldl (fun m p => insertSorted p.1 p.2 m) acc (kv :: rest)
        = List.foldl (fun m p => insertSorted p.1 p.2 m) (acc ++ [kv]) rest := by
          simp [List.foldl_cons, hins]
      _ = (acc ++ [kv]) ++ rest := ih (acc ++ [kv]) hsort
      _ = acc ++ kv :: rest := by simp

theorem extendMap_nil_left {α β : Type} [LinearOrder α]
    (l : List (α × β)) (h : SortedKeys l) : extendMap [] l = l := by
  have := foldl_insertSorted_sorted l [] (by simpa using h)
  simpa [extendMap] using this

/-! ## Lemmas on TextStyle merge -/

theorem merge_empty_right (s : TextStyle) : s.merge TextStyle.empty = s := by
  obtain ⟨f1, f2, f3, f4, f5, f6, f7, m1, m2⟩ := s
  simp [TextStyle.merge, TextStyle.empty, extendMap, Option.none_or]

theorem merge_empty_left (s : TextStyle) (h : s.Wf) :
    TextStyle.empty.merge s = s := by
  obtain ⟨hm1, hm2⟩ := h
  obtain ⟨f1, f2, f3, f4, f5, f6, f7, m1, m2⟩ := s
  simp only [TextStyle.merge, TextStyle.empty, Option.or_none]
  exact TextStyle.mk.injEq .. |>.mpr
    ⟨rfl, rfl, rfl, rfl, rfl, rfl, rfl, extendMap_nil_left m1 hm1,
      extendMap_nil_left m2 hm2⟩

/-! ## Claim C7 -/

/-- Claim C7: the all-fields-unset style is a two-sided identity of merge:
for every well-formed style s, merge of the default style with s gives s,
and merge of s with the default style gives s. -/
theorem claim_C7 (s : TextStyle) (h : s.Wf) :
    TextStyle.empty.merge s = s ∧ s.merge TextStyle.empty = s :=
  ⟨merge_empty_left s h, merge_empty_right s⟩

/-- Witness for claim C7 at a concrete style. -/
theorem claim_C7_witness :
    TextStyle.Wf
      ⟨some "serif", some 700, none, none, some 12, none, none,
        [("liga", 1)], []⟩ ∧
    (TextStyle.empty.merge
        ⟨some "serif", some 700, none, none, some 12, none, none,
          [("liga", 1)], []⟩ =
      ⟨some "serif", some 700, none, none, some 12, none, none,
        [("liga", 1)], []⟩ ∧
      TextStyle.merge
        ⟨some "serif", some 700, none, none, some 12, none, none,
          [("liga", 1)], []⟩ TextStyle.empty =
      ⟨some "serif", some 700, none, none, some 12, none, none,
        [("liga", 1)], []⟩) :=
  ⟨by simp [TextStyle.Wf, SortedKeys],
    claim_C7 _ (by simp [TextStyle.Wf, SortedKeys])⟩

/-! ## Claim C8 -/

/-- Claim C8: merge combines the two map fields as a right-biased union:
looking up any key in the merged map gives the value from the override map
when present, else the value from the base map; and on the concrete example,
merging feature settings with a mapped to 1 into a base with a mapped to 0
and b mapped to 2 yields a mapped to 1 and b mapped to 2. -/
theorem claim_C8 :
    (∀ base ov : TextStyle, ov.Wf → ∀ k : String,
      alookup k (base.merge ov).font_feature_settings =
        (alookup k ov.font_feature_settings).or
          (alookup k base.font_feature_settings) ∧
      alookup k (base.merge ov).font_variation_settings =
        (alookup k ov.font_variation_settings).or
          (alookup k base.font_variation_settings)) ∧
    extendMap [("a", 0), ("b", 2)] [("a", 1)] = [("a", 1), ("b", 2)] := by
  constructor
  · intro base ov hov k
    exact ⟨lookup_extendMap ov.font_feature_settings
        base.font_feature_settings hov.1 k,
      lookup_extendMap ov.font_variation_settings
        base.font_variation_settings hov.2 k⟩
  · simp [extendMap, insertSorted]

/-- Witness for claim C8 on concrete styles and key. -/
theorem claim_C8_witness :
    TextStyle.Wf
      ⟨none, none, none, none, none, none, none, [("a", 1)], []⟩ ∧
    alookup "a"
        (TextStyle.merge
          ⟨none, none, none, none, none, none, none, [("a", 0), ("b", 2)], []⟩
          ⟨none, none, none, none, none, none, none,
            [("a", 1)], []⟩).font_feature_settings =
      (alookup "a"
          [(("a" : String), (1 : Nat))]).or (alookup "a" [("a", 0), ("b", 2)]) :=
  ⟨by simp [TextStyle.Wf, SortedKeys],
    (claim_C8.1
      ⟨none, none, none, none, none, none, none, [("a", 0), ("b", 2)], []⟩
      ⟨none, none, none, none, none, none, none, [("a", 1)], []⟩
      (by simp [TextStyle.Wf, SortedKeys]) "a").1⟩

/-! ## Claim C5 -/

/-- The horizontal alignment factor as stated in the spec. -/
def factorH : HAlign → ℚ
  | HAlign.Left => 0
  | HAlign.Center => 1 / 2
  | HAlign.Right => 1

/-- The vertical alignment factor as stated in the spec. -/
def factorV : VAlign → ℚ
  | VAlign.Top => 0
  | VAlign.Center => 1 / 2
  | VAlign.Bottom => 1

/-- Claim C5: compute_layout_offset returns the difference of the frame
anchor and the text anchor, with unset frame edges defaulting to the canvas
edges, and on the concrete centered example it returns (452, 492). -/
theorem claim_C5 :
    (∀ (cw ch : ℚ) (frame : DocumentFrame) (m : TextMetrics),
      compute_layout_offset cw ch frame m =
        (frame.left.getD 0 +
            factorH frame.horizontal_align *
              (frame.right.getD cw - frame.left.getD 0) -
            (m.left + factorH frame.horizontal_align * m.width),
          frame.top.getD 0 +
            factorV frame.vertical_align *
              (frame.bottom.getD ch - frame.top.getD 0) -
            (m.top + factorV frame.vertical_align * m.height))) ∧
    compute_layout_offset 1024 1024
        ⟨none, none, none, none, HAlign.Center, VAlign.Center⟩
        ⟨10, 10, 100, 20⟩ = (452, 492) := by
  constructor
  · intro cw ch frame m
    cases hh : frame.horizontal_align <;> cases hv : frame.vertical_align <;>
      simp [compute_layout_offset, factorH, factorV, hh, hv]
  · norm_num [compute_layout_offset]

/-! ## Claim C6 -/

theorem penLoop_getD (b : Nat) (adv : List ℚ) :
    ∀ (off : ℚ) (i : Nat), i + 1 < adv.length →
      (penLoop b off adv).getD (i + 1) 0 =
        (penLoop b off adv).getD i 0 + direction b * adv.getD i 0 := by
  induction adv with
  | nil => intro off i h; simp at h
  | cons a rest ih =>
    intro off i h
    cases i with
    | zero =>
      cases rest with
      | nil => simp at h
      | cons r0 rest2 => simp [penLoop]
    | succ j =>
      have hj : j + 1 < rest.length := by
        simpa [Nat.succ_lt_succ_iff] using h
      simpa [penLoop] using ih (off + direction b * a) j hj

/-- Claim C6: in DrawGlyphRun the pen x position of glyph i+1 is the pen x
position of glyph i plus direction times the advance of glyph i, where the
direction is -1 for an odd bidi level and +1 for an even one; hence
successive positions strictly decrease for odd levels with positive
advances and strictly increase for even levels. -/
theorem claim_C6 (bidiLevel : Nat) (advances : List ℚ) (i : Nat)
    (h : i + 1 < advances.length) :
    (penPositions bidiLevel advances).getD (i + 1) 0 =
      (penPositions bidiLevel advances).getD i 0 +
        direction bidiLevel * advances.getD i 0 ∧
    (bidiLevel % 2 = 1 → 0 < advances.getD i 0 →
      (penPositions bidiLevel advances).getD (i + 1) 0 <
        (penPositions bidiLevel advances).getD i 0) ∧
    (bidiLevel % 2 = 0 → 0 < advances.getD i 0 →
      (penPositions bidiLevel advances).getD i 0 <
        (penPositions bidiLevel advances).getD (i + 1) 0) := by
  have hstep : (penPositions bidiLevel advances).getD (i + 1) 0 =
      (penPositions bidiLevel advances).getD i 0 +
        direction bidiLevel * advances.getD i 0 :=
    penLoop_getD bidiLevel advances 0 i h
  refine ⟨hstep, ?_, ?_⟩
  · intro hodd hpos
    have hd : direction bidiLevel = -1 := by simp [direction, hodd]
    rw [hstep, hd]
    linarith
  · intro heven hpos
    have h1 : ¬ bidiLevel % 2 = 1 := by omega
    have hd : direction bidiLevel = 1 := by simp [direction, h1]
    rw [hstep, hd]
    linarith

/-- Witness for claim C6: an odd-level run with advances 2 and 3 has
strictly decreasing pen positions. -/
theorem claim_C6_witness :
    (penPositions 1 [2, 3]).getD 1 0 < (penPositions 1 [2, 3]).getD 0 0 :=
  (claim_C6 1 [2, 3] 0 (by norm_num)).2.1 (by norm_num) (by norm_num)

/-! ## Claim C2 -/

/-- Counterexample to claim C2: the freshly constructed style stack is
empty rather than holding one empty style, and a StyleChange analyzed at
the top level outside any Embed starts a run carrying the default style,
not the merge of the default style with the change. -/
theorem claim_C2_counterexample :
    DocumentAnalyzer.new.style_stack = [] ∧
    ([] : List TextStyle) ≠ [TextStyle.empty] ∧
    (analyze DocumentAnalyzer.new
        (DocumentContent.Style
          { TextStyle.empty with font_weight := some 700 })).style_runs =
      [⟨0, 0, TextStyle.empty⟩] ∧
    TextStyle.empty.merge { TextStyle.empty with font_weight := some 700 } ≠
      TextStyle.empty := by
  refine ⟨rfl, by simp, ?_, by decide⟩
  simp [analyze, DocumentAnalyzer.new, start_style_run]

/-- Claim C2 as amended: the style stack starts empty; a StyleChange with a
non-empty stack replaces the top with the merge of the top and the change
and starts a zero-length run with that merged style, while a StyleChange
with an empty stack merges nothing and starts a zero-length run with the
default style. -/
theorem claim_C2_amended (a : DocumentAnalyzer) (s : TextStyle) :
    (analyze a (DocumentContent.Style s)).text = a.text ∧
    (a.style_stack = [] →
      analyze a (DocumentContent.Style s) =
        { a with style_runs :=
            a.style_runs ++
              [⟨a.text.length, a.text.length, TextStyle.empty⟩] }) ∧
    (∀ pre top, a.style_stack = pre ++ [top] →
      analyze a (DocumentContent.Style s) =
        { a with
            style_stack := pre ++ [top.merge s],
            style_runs :=
              a.style_runs ++
                [⟨a.text.length, a.text.length, top.merge s⟩] }) := by
  have h2 : a.style_stack = [] →
      analyze a (DocumentContent.Style s) =
        { a with style_runs :=
            a.style_runs ++
              [⟨a.text.length, a.text.length, TextStyle.empty⟩] } := by
    intro h
    simp [analyze, h, start_style_run]
  have h3 : ∀ pre top, a.style_stack = pre ++ [top] →
      analyze a (DocumentContent.Style s) =
        { a with
            style_stack := pre ++ [top.merge s],
            style_runs :=
              a.style_runs ++
                [⟨a.text.length, a.text.length, top.merge s⟩] } := by
    intro pre top hpt
    simp [analyze, hpt, start_style_run, List.getLast?_concat,
      List.dropLast_concat]
  refine ⟨?_, h2, h3⟩
  rcases List.eq_nil_or_concat a.style_stack with hnil | ⟨pre, top, hconcat⟩
  · rw [h2 hnil]
  · rw [h3 pre top (by simpa using hconcat)]

/-- Witness for claim C2 as amended, at the fresh analyzer. -/
theorem claim_C2_witness :
    DocumentAnalyzer.new.style_stack = [] ∧
    analyze DocumentAnalyzer.new (DocumentContent.Style TextStyle.empty) =
      { DocumentAnalyzer.new with style_runs := [⟨0, 0, TextStyle.empty⟩] } :=
  ⟨rfl, by
    have h :=
      (claim_C2_amended DocumentAnalyzer.new TextStyle.empty).2.1 rfl
    simpa [DocumentAnalyzer.new] using h⟩

/-! ## Claim C3 -/

/-- Claim C3: for content Style X, Embed of Style Y, Text z analyzed inside
one scope, the only non-zero-length run is the one covering z and it
carries style X, the pre-embed effective style, not X merged with Y. -/
theorem claim_C3 (X Y : TextStyle) (z : List Nat) (hX : X.Wf) (hz : z ≠ []) :
    appliedStyleRuns
        (analyze DocumentAnalyzer.new
          (DocumentContent.Embed
            [DocumentContent.Style X,
              DocumentContent.Embed [DocumentContent.Style Y],
              DocumentContent.Text z])).style_runs =
      [⟨0, z.length, X⟩] := by
  have hn : 0 < z.length := List.length_pos.mpr hz
  have hne : ¬ z.length ≤ 0 := by omega
  simp [analyze, analyzeList, DocumentAnalyzer.new, sync_style_run_length,
    start_style_run, merge_empty_left X hX, appliedStyleRuns, List.filter,
    hne]

/-- Witness for claim C3 at concrete styles and text. -/
theorem claim_C3_witness :
    TextStyle.Wf { TextStyle.empty with font_weight := some 700 } ∧
    ([(90 : Nat)] ≠ []) ∧
    appliedStyleRuns
        (analyze DocumentAnalyzer.new
          (DocumentContent.Embed
            [DocumentContent.Style
                { TextStyle.empty with font_weight := some 700 },
              DocumentContent.Embed
                [DocumentContent.Style
                  { TextStyle.empty with font_size := some 9 }],
              DocumentContent.Text [90]])).style_runs =
      [⟨0, 1, { TextStyle.empty with font_weight := some 700 }⟩] := by
  refine ⟨by simp [TextStyle.Wf, SortedKeys, TextStyle.empty], by simp, ?_⟩
  have h := claim_C3 { TextStyle.empty with font_weight := some 700 }
    { TextStyle.empty with font_size := some 9 } [90]
    (by simp [TextStyle.Wf, SortedKeys, TextStyle.empty]) (by simp)
  simpa using h

/-! ## Claim C9 -/

/-- Invariant of the analyzer state: every run has start at most end and
end at most the current text length, and run starts are non-decreasing. -/
def AnalyzerInv (a : DocumentAnalyzer) : Prop :=
  (∀ r ∈ a.style_runs,
    r.wch_start ≤ r.wch_end ∧ r.wch_end ≤ a.text.length) ∧
  a.style_runs.Pairwise (fun r1 r2 => r1.wch_start ≤ r2.wch_start)

theorem inv_start_style_run (a : DocumentAnalyzer) (sty : TextStyle)
    (h : AnalyzerInv a) : AnalyzerInv (start_style_run a sty) := by
  obtain ⟨h1, h2⟩ := h
  refine ⟨?_, ?_⟩
  · intro r hr
    simp only [start_style_run, List.mem_append, List.mem_singleton] at hr ⊢
    rcases hr with hr | hr
    · exact h1 r hr
    · subst hr
      exact ⟨le_rfl, le_rfl⟩
  · simp only [start_style_run]
    rw [List.pairwise_append]
    refine ⟨h2, by simp, ?_⟩
    intro x hx y hy
    simp only [List.mem_singleton] at hy
    subst hy
    have hb := h1 x hx
    exact le_trans hb.1 hb.2

theorem inv_sync (a : DocumentAnalyzer) (h : AnalyzerInv a) :
    AnalyzerInv (sync_style_run_length a) := by
  obtain ⟨h1, h2⟩ := h
  unfold sync_style_run_length
  split
  · exact ⟨h1, h2⟩
  · rename_i r hg
    obtain ⟨init, hinit⟩ := List.getLast?_eq_some_iff.mp hg
    have hrmem : r ∈ a.style_runs := by
      rw [hinit]; simp
    have hrb := h1 r hrmem
    refine ⟨?_, ?_⟩
    · intro q hq
      simp only [hinit, List.dropLast_concat, List.mem_append,
        List.mem_singleton] at hq ⊢
      rcases hq with hq | hq
      · exact h1 q (by rw [hinit]; exact List.mem_append_left _ hq)
      · subst hq
        exact ⟨le_trans hrb.1 hrb.2, le_rfl⟩
    · simp only [hinit, List.dropLast_concat]
      rw [hinit, List.pairwise_append] at h2
      rw [List.pairwise_append]
      refine ⟨h2.1, by simp, ?_⟩
      intro x hx y hy
      simp only [List.mem_singleton] at hy
      subst hy
      have := h2.2.2 x hx r (by simp)
      simpa using this

theorem inv_text_extend (a : DocumentAnalyzer) (tx : List Nat)
    (h : AnalyzerInv a) : AnalyzerInv { a with text := a.text ++ tx } := by
  obtain ⟨h1, h2⟩ := h
  refine ⟨?_, h2⟩
  intro r hr
  have hb := h1 r hr
  refine ⟨hb.1, ?_⟩
  calc r.wch_end ≤ a.text.length := hb.2
    _ ≤ (a.text ++ tx).length := by simp

mutual

theorem analyze_inv (a : DocumentAnalyzer) (c : DocumentContent)
    (h : AnalyzerInv a) : AnalyzerInv (analyze a c) := by
  cases c with
  | Text tx =>
    simp only [analyze]
    exact inv_sync _ (inv_text_extend a tx h)
  | Style s =>
    simp only [analyze]
    split
    · exact inv_start_style_run _ _ h
    · exact inv_start_style_run _ _ h
  | Embed sub =>
    simp only [analyze]
    exact inv_start_style_run _ _
      (analyzeList_inv _ sub (inv_start_style_run _ _ (inv_sync a h)))

theorem analyzeList_inv (a : DocumentAnalyzer) (cs : List DocumentContent)
    (h : AnalyzerInv a) : AnalyzerInv (analyzeList a cs) := by
  cases cs with
  | nil => simpa [analyzeList] using h
  | cons c cs2 =>
    simp only [analyzeList]
    exact analyzeList_inv _ cs2 (analyze_inv a c h)

end

/-- Claim C9: after any sequence of analyze calls from the fresh analyzer,
every run has start at most end and the runs are in non-decreasing start
order; zero-length runs are present in the output of the builder (a lone
StyleChange leaves one), and the layout consumer keeps exactly the runs
whose end is strictly greater than their start. -/
theorem claim_C9 :
    (∀ dcs : List DocumentContent,
      (∀ r ∈ (analyzeList DocumentAnalyzer.new dcs).style_runs,
        r.wch_start ≤ r.wch_end) ∧
      (analyzeList DocumentAnalyzer.new dcs).style_runs.Pairwise
        (fun r1 r2 => r1.wch_start ≤ r2.wch_start)) ∧
    (analyzeList DocumentAnalyzer.new
        [DocumentContent.Style TextStyle.empty]).style_runs =
      [⟨0, 0, TextStyle.empty⟩] ∧
    (∀ (runs : List StyleRun) (r : StyleRun),
      r ∈ appliedStyleRuns runs ↔
        r ∈ runs ∧ ¬ (r.wch_end ≤ r.wch_start)) := by
  refine ⟨?_, ?_, ?_⟩
  · intro dcs
    have hnew : AnalyzerInv DocumentAnalyzer.new :=
      ⟨by simp [DocumentAnalyzer.new], by simp [DocumentAnalyzer.new]⟩
    have h := analyzeList_inv DocumentAnalyzer.new dcs hnew
    exact ⟨fun r hr => (h.1 r hr).1, h.2⟩
  · simp [analyzeList, analyze, DocumentAnalyzer.new, start_style_run]
  · intro runs r
    simp [appliedStyleRuns, List.mem_filter]

/-- Witness for claim C9 at the output of a lone StyleChange. -/
theorem claim_C9_witness :
    (⟨0, 0, TextStyle.empty⟩ : StyleRun).wch_start ≤
      (⟨0, 0, TextStyle.empty⟩ : StyleRun).wch_end ∧
    ((⟨0, 0, TextStyle.empty⟩ : StyleRun) ∈
        appliedStyleRuns [⟨0, 0, TextStyle.empty⟩] ↔
      (⟨0, 0, TextStyle.empty⟩ : StyleRun) ∈
          [(⟨0, 0, TextStyle.empty⟩ : StyleRun)] ∧
        ¬ ((⟨0, 0, TextStyle.empty⟩ : StyleRun).wch_end ≤
            (⟨0, 0, TextStyle.empty⟩ : StyleRun).wch_start)) :=
  ⟨(claim_C9.1 [DocumentContent.Style TextStyle.empty]).1
      ⟨0, 0, TextStyle.empty⟩ (by rw [claim_C9.2.1]; simp),
    claim_C9.2.2 [⟨0, 0, TextStyle.empty⟩] ⟨0, 0, TextStyle.empty⟩⟩

/-! ## Claim C4 -/

/-- One step of first-occurrence deduplication. -/
def dedupStep (acc : List String) (s : String) : List String :=
  if s ∈ acc then acc else acc ++ [s]

/-- The distinct elements of a list in first-occurrence order. -/
def firstDedup (l : List String) : List String :=
  l.foldl dedupStep []

/-- The non-empty strings of a list, in order. -/
def nonEmptyFilter (l : List String) : List String :=
  l.filter (fun s => !(s == ""))

/-- Pair every element with its position counted from the given start. -/
def enum1 (start : Nat) : List String → List (String × Nat)
  | [] => []
  | s :: rest => (s, start) :: enum1 (start + 1) rest

/-- The catalog the spec describes: the distinct non-empty path strings in
first-insertion order, paired with the consecutive ids 1, 2, 3 and so on. -/
def specCatalog (l : List String) : List (String × Nat) :=
  enum1 1 (firstDedup (nonEmptyFilter l))

/-- Position of the first occurrence of an element. -/
def posOf (s : String) : List String → Nat
  | [] => 0
  | t :: rest => if s = t then 0 else posOf s rest + 1

theorem posOf_append_of_mem (s : String) (d e : List String) (h : s ∈ d) :
    posOf s (d ++ e) = posOf s d := by
  induction d with
  | nil => simp at h
  | cons t rest ih =>
    by_cases hst : s = t
    · simp [posOf, hst]
    · have hmem : s ∈ rest := by
        rcases List.mem_cons.mp h with h1 | h1
        · exact absurd h1 hst
        · exact h1
      simp [posOf, hst, ih hmem]

theorem posOf_append_self (s : String) (d : List String) (h : ¬ s ∈ d) :
    posOf s (d ++ [s]) = d.length := by
  induction d with
  | nil => simp [posOf]
  | cons t rest ih =>
    have hst : ¬ s = t := fun he => h (by simp [he])
    have hmem : ¬ s ∈ rest := fun hm => h (by simp [hm])
    simp [posOf, hst, ih hmem]

theorem mem_foldl_dedupStep (s : String) (xs : List String) :
    ∀ acc, s ∈ List.foldl dedupStep acc xs ↔ s ∈ acc ∨ s ∈ xs := by
  induction xs with
  | nil => intro acc; simp
  | cons t rest ih =>
    intro acc
    rw [List.foldl_cons, ih]
    unfold dedupStep
    by_cases ht : t ∈ acc
    · simp only [if_pos ht]
      constructor
      · intro h; rcases h with h | h
        · exact Or.inl h
        · exact Or.inr (by simp [h])
      · intro h
        rcases h with h | h
        · exact Or.inl h
        · rcases List.mem_cons.mp h with h1 | h1
          · exact Or.inl (h1 ▸ ht)
          · exact Or.inr h1
    · simp only [if_neg ht, List.mem_append, List.mem_singleton,
        List.mem_cons]
      tauto

theorem posOf_foldl_dedupStep (s : String) (xs : List String) :
    ∀ acc, s ∈ acc →
      posOf s (List.foldl dedupStep acc xs) = posOf s acc := by
  induction xs with
  | nil => intro acc _; rfl
  | cons t rest ih =>
    intro acc hmem
    rw [List.foldl_cons]
    have hmem2 : s ∈ dedupStep acc t := by
      unfold dedupStep
      split
      · exact hmem
      · exact List.mem_append_left _ hmem
    rw [ih _ hmem2]
    unfold dedupStep
    split
    · rfl
    · exact posOf_append_of_mem s acc [t] hmem

theorem alookup_enum1 (s : String) (d : List String) :
    ∀ k, alookup s (enum1 k d) =
      if s ∈ d then some (k + posOf s d) else none := by
  induction d with
  | nil => intro k; simp [enum1, alookup]
  | cons t rest ih =>
    intro k
    by_cases hst : s = t
    · simp [enum1, alookup, hst, posOf]
    · have : s ∈ t :: rest ↔ s ∈ rest := by simp [hst]
      simp only [enum1, alookup, if_neg hst, ih (k + 1), this, posOf,
        if_neg hst]
      by_cases hmem : s ∈ rest
      · simp [hmem, Nat.add_comm, Nat.add_assoc, Nat.add_left_comm]
      · simp [hmem]

theorem enum1_append (d : List String) (s : String) :
    ∀ k, enum1 k (d ++ [s]) = enum1 k d ++ [(s, k + d.length)] := by
  induction d with
  | nil => intro k; simp [enum1]
  | cons t rest ih =>
    intro k
    show (t, k) :: enum1 (k + 1) (rest ++ [s]) =
      ((t, k) :: enum1 (k + 1) rest) ++ [(s, k + (rest.length + 1))]
    rw [ih (k + 1), List.cons_append]
    have h2 : k + 1 + rest.length = k + (rest.length + 1) := by omega
    rw [h2]

theorem internAll_append (l : List String) (s : String) :
    internAll (l ++ [s]) = (add_path_def (internAll l) s).1 := by
  simp [internAll, List.foldl_append]

/-- The store after interning a list of strings holds exactly the spec
catalog, and the id counter equals the number of catalog entries. -/
theorem internAll_spec (l : List String) :
    (internAll l).path_defs = specCatalog l ∧
    (internAll l).last_path_id = (firstDedup (nonEmptyFilter l)).length := by
  induction l using List.reverseRecOn with
  | nil => exact ⟨rfl, rfl⟩
  | append_singleton l s ih =>
    obtain ⟨ih1, ih2⟩ := ih
    rw [internAll_append]
    by_cases hs : s = ""
    · subst hs
      have hstore : (add_path_def (internAll l) "").1 = internAll l := by
        simp [add_path_def]
      have hfilter : nonEmptyFilter (l ++ [""]) = nonEmptyFilter l := by
        simp [nonEmptyFilter, List.filter_append]
      rw [hstore, specCatalog, hfilter]
      exact ⟨ih1, ih2⟩
    · have hfilter : nonEmptyFilter (l ++ [s]) = nonEmptyFilter l ++ [s] := by
        simp [nonEmptyFilter, List.filter_append, hs]
      have hdedup : firstDedup (nonEmptyFilter (l ++ [s])) =
          dedupStep (firstDedup (nonEmptyFilter l)) s := by
        rw [hfilter, firstDedup, List.foldl_append]
        rfl
      by_cases hmem : s ∈ firstDedup (nonEmptyFilter l)
      · have hlook : alookup s (internAll l).path_defs =
            some (1 + posOf s (firstDedup (nonEmptyFilter l))) := by
          rw [ih1, specCatalog, alookup_enum1, if_pos hmem]
        have hstore : (add_path_def (internAll l) s).1 = internAll l := by
          simp [add_path_def, hs, hlook]
        rw [hstore, specCatalog, hdedup, dedupStep, if_pos hmem]
        exact ⟨ih1, by rw [ih2]⟩
      · have hlook : alookup s (internAll l).path_defs = none := by
          rw [ih1, specCatalog, alookup_enum1, if_neg hmem]
        have hstore : (add_path_def (internAll l) s).1 =
            ⟨(internAll l).last_path_id + 1,
              (internAll l).path_defs ++
                [(s, (internAll l).last_path_id + 1)]⟩ := by
          simp [add_path_def, hs, hlook]
        rw [hstore, specCatalog, hdedup, dedupStep, if_neg hmem]
        refine ⟨?_, by simp [ih2]⟩
        simp only [ih1, ih2, specCatalog, enum1_append]
        rw [Nat.add_comm 1 (firstDedup (nonEmptyFilter l)).length]

/-- Claim C4: interning the empty string returns 0 and leaves the store
unchanged; the catalog after any intern sequence is exactly the distinct
non-empty strings in first-insertion order paired with the consecutive ids
starting at 1; and re-interning a previously interned non-empty string
leaves the store unchanged and returns the id of the first intern. -/
theorem claim_C4 :
    (∀ st : SharedStore, add_path_def st "" = (st, 0)) ∧
    (∀ l : List String, (internAll l).path_defs = specCatalog l) ∧
    (∀ (l1 l2 : List String) (s : String), s ≠ "" →
      (add_path_def (internAll (l1 ++ s :: l2)) s).1 =
          internAll (l1 ++ s :: l2) ∧
        (add_path_def (internAll (l1 ++ s :: l2)) s).2 =
          (add_path_def (internAll l1) s).2) := by
  refine ⟨?_, ?_, ?_⟩
  · intro st
    simp [add_path_def]
  · intro l
    exact (internAll_spec l).1
  · intro l1 l2 s hs
    have hfilter : nonEmptyFilter (l1 ++ s :: l2) =
        nonEmptyFilter l1 ++ s :: nonEmptyFilter l2 := by
      simp [nonEmptyFilter, hs]
    have hdedup : firstDedup (nonEmptyFilter (l1 ++ s :: l2)) =
        List.foldl dedupStep
          (dedupStep (firstDedup (nonEmptyFilter l1)) s)
          (nonEmptyFilter l2) := by
      rw [hfilter, firstDedup, List.foldl_append]
      rfl
    have hmem0 : s ∈ dedupStep (firstDedup (nonEmptyFilter l1)) s := by
      unfold dedupStep
      split
      · assumption
      · simp
    have hmemD : s ∈ firstDedup (nonEmptyFilter (l1 ++ s :: l2)) := by
      rw [hdedup, mem_foldl_dedupStep]
      exact Or.inl hmem0
    have hposD : posOf s (firstDedup (nonEmptyFilter (l1 ++ s :: l2))) =
        posOf s (dedupStep (firstDedup (nonEmptyFilter l1)) s) := by
      rw [hdedup]
      exact posOf_foldl_dedupStep s (nonEmptyFilter l2) _ hmem0
    have hlook : alookup s (internAll (l1 ++ s :: l2)).path_defs =
        some (1 + posOf s (firstDedup (nonEmptyFilter (l1 ++ s :: l2)))) := by
      rw [(internAll_spec (l1 ++ s :: l2)).1, specCatalog, alookup_enum1,
        if_pos hmemD]
    constructor
    · simp [add_path_def, hs, hlook]
    · rw [show (add_path_def (internAll (l1 ++ s :: l2)) s).2 =
          1 + posOf s (firstDedup (nonEmptyFilter (l1 ++ s :: l2))) from by
        simp [add_path_def, hs, hlook]]
      rw [hposD]
      by_cases hmem1 : s ∈ firstDedup (nonEmptyFilter l1)
      · have hlook1 : alookup s (internAll l1).path_defs =
            some (1 + posOf s (firstDedup (nonEmptyFilter l1))) := by
          rw [(internAll_spec l1).1, specCatalog, alookup_enum1,
            if_pos hmem1]
        rw [show (add_path_def (internAll l1) s).2 =
            1 + posOf s (firstDedup (nonEmptyFilter l1)) from by
          simp [add_path_def, hs, hlook1]]
        rw [dedupStep, if_pos hmem1]
      · have hlook1 : alookup s (internAll l1).path_defs = none := by
          rw [(internAll_spec l1).1, specCatalog, alookup_enum1,
            if_neg hmem1]
        rw [show (add_path_def (internAll l1) s).2 =
            (internAll l1).last_path_id + 1 from by
          simp [add_path_def, hs, hlook1]]
        rw [dedupStep, if_neg hmem1, (internAll_spec l1).2,
          posOf_append_self s _ hmem1]
        omega

/-- Witness for claim C4: re-interning the string p returns the id from the
first intern and leaves the store unchanged. -/
theorem claim_C4_witness :
    ("p" ≠ "") ∧
    ((add_path_def (internAll ["p", "p"]) "p").1 = internAll ["p", "p"] ∧
      (add_path_def (internAll ["p", "p"]) "p").2 =
        (add_path_def (internAll ["p"]) "p").2) :=
  ⟨by decide, claim_C4.2.2 ["p"] [] "p" (by decide)⟩

/-! ## Claim C1 -/

/-- The emission rule of claim C1 as stated: the tolerance is measured in
the post-scale coordinate space, comparing the scalar-multiplied midpoint
candidates against 1/256. -/
def specBezierCmdPostScale (scalar : ℚ) (p0 : ℚ × ℚ)
    (curve : BezierSegment) : PathCmd :=
  let m1x := p0.1 + (curve.point1.x - p0.1) * (3 / 2)
  let m1y := p0.2 + (curve.point1.y - p0.2) * (3 / 2)
  let m2x := curve.point3.x + (curve.point2.x - curve.point3.x) * (3 / 2)
  let m2y := curve.point3.y + (curve.point2.y - curve.point3.y) * (3 / 2)
  if |scalar * m2x - scalar * m1x| < 1 / 256 ∧
      |scalar * m2y - scalar * m1y| < 1 / 256 then
    PathCmd.Q (process_coord scalar ((m1x + m2x) / 2))
      (process_coord scalar ((m1y + m2y) / 2))
      (process_coord scalar curve.point3.x)
      (process_coord scalar curve.point3.y)
  else
    PathCmd.C (process_coord scalar curve.point1.x)
      (process_coord scalar curve.point1.y)
      (process_coord scalar curve.point2.x)
      (process_coord scalar curve.point2.y)
      (process_coord scalar curve.point3.x)
      (process_coord scalar curve.point3.y)

/-- The emission rule of claim C1 with the amended tolerance space: the
tolerance is measured on the original, unscaled and unquantized
coordinates. -/
def specBezierCmdPreScale (scalar : ℚ) (p0 : ℚ × ℚ)
    (curve : BezierSegment) : PathCmd :=
  let m1x := p0.1 + (curve.point1.x - p0.1) * (3 / 2)
  let m1y := p0.2 + (curve.point1.y - p0.2) * (3 / 2)
  let m2x := curve.point3.x + (curve.point2.x - curve.point3.x) * (3 / 2)
  let m2y := curve.point3.y + (curve.point2.y - curve.point3.y) * (3 / 2)
  if |m2x - m1x| < 1 / 256 ∧ |m2y - m1y| < 1 / 256 then
    PathCmd.Q (process_coord scalar ((m1x + m2x) / 2))
      (process_coord scalar ((m1y + m2y) / 2))
      (process_coord scalar curve.point3.x)
      (process_coord scalar curve.point3.y)
  else
    PathCmd.C (process_coord scalar curve.point1.x)
      (process_coord scalar curve.point1.y)
      (process_coord scalar curve.point2.x)
      (process_coord scalar curve.point2.y)
      (process_coord scalar curve.point3.x)
      (process_coord scalar curve.point3.y)

/-- The start point of every segment of an AddBeziers call: the initial
last point for the first segment, then the endpoint of each previous
segment. -/
def startPoints (p0 : ℚ × ℚ) : List BezierSegment → List (ℚ × ℚ)
  | [] => []
  | c :: rest => p0 :: startPoints (c.point3.x, c.point3.y) rest

theorem tol_iff (d : ℚ) : COORD_RESOLUTION * |d| < 1 ↔ |d| < 1 / 256 := by
  unfold COORD_RESOLUTION
  constructor <;> intro h <;> linarith

theorem addBezierStep_spec (scalar : ℚ) (st : ℚ × ℚ)
    (curve : BezierSegment) :
    (addBezierStep scalar st curve).1 =
      specBezierCmdPreScale scalar st curve ∧
    (addBezierStep scalar st curve).2 = (curve.point3.x, curve.point3.y) := by
  refine ⟨?_, rfl⟩
  simp only [addBezierStep, specBezierCmdPreScale]
  exact if_congr (and_congr (tol_iff _) (tol_iff _)) rfl rfl

theorem startPoints_length (p0 : ℚ × ℚ) (segs : List BezierSegment) :
    (startPoints p0 segs).length = segs.length := by
  induction segs generalizing p0 with
  | nil => rfl
  | cons c rest ih => simp [startPoints, ih]

/-- Claim C1 as amended: AddBeziers emits exactly one command per segment;
the command for each segment is a quadratic with the quantized midpoint of
the two candidate control points and the quantized endpoint when the two
candidates are within 1/256 on both axes measured on the original unscaled
coordinates, and the full cubic with quantized control points otherwise.
The start point of each segment is the endpoint of the previous one. -/
theorem claim_C1_amended (scalar : ℚ) (p0 : ℚ × ℚ)
    (segs : List BezierSegment) :
    (AddBeziers scalar p0 segs).1 =
      List.zipWith (specBezierCmdPreScale scalar) (startPoints p0 segs)
        segs ∧
    (AddBeziers scalar p0 segs).1.length = segs.length := by
  have hmain : ∀ (q : ℚ × ℚ),
      (AddBeziers scalar q segs).1 =
        List.zipWith (specBezierCmdPreScale scalar) (startPoints q segs)
          segs := by
    induction segs with
    | nil => intro q; rfl
    | cons c rest ih =>
      intro q
      simp only [AddBeziers, startPoints, List.zipWith_cons_cons]
      rw [(addBezierStep_spec scalar q c).1, (addBezierStep_spec scalar q c).2,
        ih]
  refine ⟨hmain p0, ?_⟩
  rw [hmain p0, List.length_zipWith, startPoints_length]
  simp

/-- Counterexample to claim C1 as stated: with scalar 2 the code measures
the tolerance on the unscaled coordinates and emits a quadratic, while the
post-scale tolerance of the claim fails, so the claim requires the full
cubic command for the same segment. -/
theorem claim_C1_counterexample :
    (AddBeziers 2 (0, 0) [⟨⟨1 / 450, 0⟩, ⟨0, 0⟩, ⟨0, 0⟩⟩]).1 ≠
      [specBezierCmdPostScale 2 (0, 0) ⟨⟨1 / 450, 0⟩, ⟨0, 0⟩, ⟨0, 0⟩⟩] ∧
    (AddBeziers 2 (0, 0) [⟨⟨1 / 450, 0⟩, ⟨0, 0⟩, ⟨0, 0⟩⟩]).1 =
      [PathCmd.Q (1 / 256) 0 0 0] ∧
    specBezierCmdPostScale 2 (0, 0) ⟨⟨1 / 450, 0⟩, ⟨0, 0⟩, ⟨0, 0⟩⟩ =
      PathCmd.C (1 / 256) 0 0 0 0 0 := by
  have h2 : (AddBeziers 2 (0, 0) [⟨⟨1 / 450, 0⟩, ⟨0, 0⟩, ⟨0, 0⟩⟩]).1 =
      [PathCmd.Q (1 / 256) 0 0 0] := by
    norm_num [AddBeziers, addBezierStep, tol_iff, abs_lt, abs_of_nonneg,
      process_coord, rustRound, COORD_RESOLUTION]
  have h3 : specBezierCmdPostScale 2 (0, 0) ⟨⟨1 / 450, 0⟩, ⟨0, 0⟩, ⟨0, 0⟩⟩ =
      PathCmd.C (1 / 256) 0 0 0 0 0 := by
    norm_num [specBezierCmdPostScale, abs_lt, abs_of_nonneg, process_coord,
      rustRound, COORD_RESOLUTION]
  refine ⟨?_, h2, h3⟩
  rw [h2, h3]
  simp

/-! ## Claim C10 -/

theorem lor_shiftLeft_eq (a b n : Nat) (h : a < 2 ^ n) :
    a ||| (b <<< n) = 2 ^ n * b + a := by
  apply Nat.eq_of_testBit_eq
  intro j
  rw [Nat.testBit_or, Nat.testBit_shiftLeft,
    Nat.testBit_mul_pow_two_add b h j]
  by_cases hj : j < n
  · have hnj : ¬ n ≤ j := by omega
    simp [hj, hnj]
  · have hnj : n ≤ j := by omega
    have hbit : a.testBit j = false :=
      Nat.testBit_lt_two_pow
        (lt_of_lt_of_le h (Nat.pow_le_pow_right (by norm_num) hnj))
    simp [hj, hnj, hbit]

theorem tag_step_eq (r c : Nat) (h : r < 4294967296) :
    tag_step r c = 16777216 * (c % 256) + r / 256 := by
  unfold tag_step
  have h1 : r >>> 8 = r / 256 := by
    rw [Nat.shiftRight_eq_div_pow]
  have h2 : c &&& 0xff = c % 256 := by
    have := Nat.and_pow_two_sub_one_eq_mod c 8
    norm_num at this
    exact this
  have h3 : r / 256 < 2 ^ 24 := by
    have h4 : (2 : Nat) ^ 24 = 16777216 := by norm_num
    omega
  rw [h1, h2, lor_shiftLeft_eq _ _ 24 h3]
  norm_num

theorem tag_step_lt (r c : Nat) (h : r < 4294967296) :
    tag_step r c < 4294967296 := by
  rw [tag_step_eq r c h]
  have h1 : c % 256 < 256 := Nat.mod_lt _ (by norm_num)
  omega

theorem four_steps (r b0 b1 b2 b3 : Nat) (h : r < 4294967296) :
    tag_step (tag_step (tag_step (tag_step r b0) b1) b2) b3 =
      b0 % 256 + 256 * (b1 % 256) + 65536 * (b2 % 256) +
        16777216 * (b3 % 256) := by
  have l1 := tag_step_lt r b0 h
  have l2 := tag_step_lt _ b1 l1
  have l3 := tag_step_lt _ b2 l2
  rw [tag_step_eq _ b3 l3, tag_step_eq _ b2 l2, tag_step_eq _ b1 l1,
    tag_step_eq _ b0 h]
  have h0 : b0 % 256 < 256 := Nat.mod_lt _ (by norm_num)
  have h1 : b1 % 256 < 256 := Nat.mod_lt _ (by norm_num)
  have h2 : b2 % 256 < 256 := Nat.mod_lt _ (by norm_num)
  have h3 : b3 % 256 < 256 := Nat.mod_lt _ (by norm_num)
  omega

theorem tag_pad_stop (r : Nat) : tag_pad r 4 = r := by
  rw [tag_pad]
  simp

theorem tag_pad_ge (r len : Nat) (h : 4 ≤ len) : tag_pad r len = r := by
  rw [tag_pad]
  rw [dif_neg (by omega)]

theorem tag_pad_as_step (r len : Nat) (h : len < 4) :
    tag_pad r len = tag_pad (tag_step r 32) (len + 1) := by
  rw [tag_pad]
  simp only [dif_pos h]
  congr 1


/-- Closed form of string_to_tag on inputs of at most four code points:
the little-endian bytes are the codes reduced mod 256, padded with 0x20. -/
theorem string_to_tag_closed (l : List Nat) (h : l.length ≤ 4) :
    string_to_tag l =
      l.getD 0 32 % 256 + 256 * (l.getD 1 32 % 256) +
        65536 * (l.getD 2 32 % 256) + 16777216 * (l.getD 3 32 % 256) := by
  match l with
  | [] =>
    show tag_pad (List.foldl tag_step 0 []) 0 = _
    rw [List.foldl_nil, tag_pad_as_step _ 0 (by norm_num),
      tag_pad_as_step _ 1 (by norm_num), tag_pad_as_step _ 2 (by norm_num),
      tag_pad_as_step _ 3 (by norm_num), tag_pad_stop,
      four_steps 0 32 32 32 32 (by norm_num)]
    simp [List.getD]
  | [a] =>
    show tag_pad (List.foldl tag_step 0 [a]) 1 = _
    rw [show List.foldl tag_step 0 [a] = tag_step 0 a from rfl,
      tag_pad_as_step _ 1 (by norm_num), tag_pad_as_step _ 2 (by norm_num),
      tag_pad_as_step _ 3 (by norm_num), tag_pad_stop,
      four_steps 0 a 32 32 32 (by norm_num)]
    simp [List.getD]
  | [a, b] =>
    show tag_pad (List.foldl tag_step 0 [a, b]) 2 = _
    rw [show List.foldl tag_step 0 [a, b] =
        tag_step (tag_step 0 a) b from rfl,
      tag_pad_as_step _ 2 (by norm_num), tag_pad_as_step _ 3 (by norm_num),
      tag_pad_stop, four_steps 0 a b 32 32 (by norm_num)]
    simp [List.getD]
  | [a, b, c] =>
    show tag_pad (List.foldl tag_step 0 [a, b, c]) 3 = _
    rw [show List.foldl tag_step 0 [a, b, c] =
        tag_step (tag_step (tag_step 0 a) b) c from rfl,
      tag_pad_as_step _ 3 (by norm_num), tag_pad_stop,
      four_steps 0 a b c 32 (by norm_num)]
    simp [List.getD]
  | [a, b, c, d] =>
    show tag_pad (List.foldl tag_step 0 [a, b, c, d]) 4 = _
    rw [show List.foldl tag_step 0 [a, b, c, d] =
        tag_step (tag_step (tag_step (tag_step 0 a) b) c) d from rfl,
      tag_pad_stop, four_steps 0 a b c d (by norm_num)]
    simp [List.getD]
  | a :: b :: c :: d :: e :: rest =>
    simp at h

theorem foldl_tag_step_lt (l : List Nat) :
    ∀ r, r < 4294967296 → List.foldl tag_step r l < 4294967296 := by
  induction l with
  | nil => intro r h; simpa using h
  | cons c rest ih =>
    intro r h
    rw [List.foldl_cons]
    exact ih _ (tag_step_lt r c h)

theorem getD_lt (l : List Nat) (hcodes : ∀ x ∈ l, x < 256) (j : Nat) :
    l.getD j 32 < 256 := by
  rcases hget : l.get? j with _ | x
  · rw [List.getD_eq_getD_get?, hget]
    norm_num
  · rw [List.getD_eq_getD_get?, hget]
    exact hcodes x (List.get?_mem hget)

/-- Claim C10: for a string of at most four one-byte code points, byte i of
string_to_tag in little-endian order is the code of character i, with 0x20
padding above; for longer strings only the last four characters
contribute. -/
theorem claim_C10 :
    (∀ l : List Nat, l.length ≤ 4 → (∀ x ∈ l, x < 256) →
      ∀ i, i < 4 → string_to_tag l / 256 ^ i % 256 = l.getD i 0x20) ∧
    (∀ l : List Nat, 4 ≤ l.length →
      string_to_tag l = string_to_tag (l.drop (l.length - 4))) := by
  constructor
  · intro l hlen hcodes i hi
    rw [string_to_tag_closed l hlen]
    have d0 := getD_lt l hcodes 0
    have d1 := getD_lt l hcodes 1
    have d2 := getD_lt l hcodes 2
    have d3 := getD_lt l hcodes 3
    rw [Nat.mod_eq_of_lt d0, Nat.mod_eq_of_lt d1, Nat.mod_eq_of_lt d2,
      Nat.mod_eq_of_lt d3]
    interval_cases i
    · rw [pow_zero, Nat.div_one]
      omega
    · rw [pow_one]
      omega
    · rw [show (256 : Nat) ^ 2 = 65536 from by norm_num]
      omega
    · rw [show (256 : Nat) ^ 3 = 16777216 from by norm_num]
      omega
  · intro l hlen
    have hsplit : l = l.take (l.length - 4) ++ l.drop (l.length - 4) :=
      (List.take_append_drop _ l).symm
    have hdlen : (l.drop (l.length - 4)).length = 4 := by
      rw [List.length_drop]
      omega
    obtain ⟨b0, b1, b2, b3, hd⟩ :
        ∃ b0 b1 b2 b3, l.drop (l.length - 4) = [b0, b1, b2, b3] := by
      rcases hdrop : l.drop (l.length - 4) with _ | ⟨x0, _ | ⟨x1, _ | ⟨x2, _ | ⟨x3, tail⟩⟩⟩⟩ <;>
        rw [hdrop] at hdlen <;> simp at hdlen
      rcases tail with _ | ⟨y, t2⟩
      · exact ⟨x0, x1, x2, x3, rfl⟩
      · simp at hdlen
    have hfold : ∀ r, r < 4294967296 →
        List.foldl tag_step r [b0, b1, b2, b3] =
          b0 % 256 + 256 * (b1 % 256) + 65536 * (b2 % 256) +
            16777216 * (b3 % 256) := by
      intro r hr
      rw [show List.foldl tag_step r [b0, b1, b2, b3] =
        tag_step (tag_step (tag_step (tag_step r b0) b1) b2) b3 from rfl]
      exact four_steps r b0 b1 b2 b3 hr
    have h1 : string_to_tag l = List.foldl tag_step 0 l := by
      rw [string_to_tag, tag_pad_ge _ _ hlen]
    have h2 : string_to_tag (l.drop (l.length - 4)) =
        List.foldl tag_step 0 (l.drop (l.length - 4)) := by
      rw [string_to_tag, tag_pad_ge]
      omega
    rw [h1, h2, hd]
    nth_rewrite 1 [hsplit]
    rw [hd, List.foldl_append,
      hfold _ (foldl_tag_step_lt _ _ (by norm_num)),
      hfold 0 (by norm_num)]

/-- Witness for claim C10: byte 1 of the tag of the single character a is
the space padding 0x20, and the five-code-point input drops its first
code point. -/
theorem claim_C10_witness :
    string_to_tag [97] / 256 ^ 1 % 256 = [97].getD 1 0x20 ∧
    string_to_tag [1, 2, 3, 4, 5] =
      string_to_tag ([1, 2, 3, 4, 5].drop ([1, 2, 3, 4, 5].length - 4)) :=
  ⟨claim_C10.1 [97] (by norm_num) (by norm_num) 1 (by norm_num),
    claim_C10.2 [1, 2, 3, 4, 5] (by norm_num)⟩
